import Mathlib

/-!
Verification development for the sequence scoring engine of the
Spartan R&D platform (CRISPR gRNA discovery and lambda scoring).

Sequences are embedded as `List Char`, JavaScript numbers holding small
integers as `ℕ`, floating point results as `ℝ`, and thrown exceptions as
`Except VError`.  The bounded `for`/`while` loops of the source are embedded
as structurally recursive functions with an explicit fuel parameter; the
fuel supplied at each call site is proven sufficient, so the fuel branch is
never reached (lemmas below).
-/

/-- Errors thrown by the scoring services (the `ValueError` class of the
source, split by the throw sites). -/
inductive VError where
  | invalidCodon (s : List Char)
  | inputTooSmall
  | notSemiprime (n : ℕ)
deriving DecidableEq

/-- The four-letter DNA alphabet test, the character class `[ACGT]`. -/
def isBase (c : Char) : Bool :=
  c == 'A' || c == 'C' || c == 'G' || c == 'T'

/-- The `BASE4` table: A=0, C=1, G=2, T=3 (0 elsewhere; the source table is
only ever read at A/C/G/T). -/
def baseVal (c : Char) : ℕ :=
  if c == 'A' then 0
  else if c == 'C' then 1
  else if c == 'G' then 2
  else if c == 'T' then 3
  else 0

/-- Value of the `CODON2INT` lookup table at a 3-character key: the table is
built as `BASE4[a] * 16 + BASE4[b] * 4 + BASE4[c]` (0 at non-keys). -/
def codonVal (l : List Char) : ℕ :=
  match l with
  | [a, b, c] => baseVal a * 16 + baseVal b * 4 + baseVal c
  | _ => 0

/-- JavaScript `s.substring(i, i+n)` for in-range arguments. -/
def substrJS (l : List Char) (i n : ℕ) : List Char :=
  (l.drop i).take n

/-- `codonToInt` from the source: uppercase, require length 3 and
`/^[ACGT]+$/`, then look up `CODON2INT`; otherwise throw `ValueError`
naming the (uppercased) codon. -/
def codonToInt (s : List Char) : Except VError ℕ :=
  let codon := s.map Char.toUpper
  if codon.length = 3 ∧ codon.all isBase then .ok (codonVal codon)
  else .error (.invalidCodon codon)

/-- Loop of `isPrime`: `for (let i = 5; i * i <= num; i = i + 6)` testing
`num % i` and `num % (i + 2)`.  `fuel` bounds the iteration count; the call
site passes `num`, which the correctness lemmas below prove sufficient. -/
def isPrimeAux (num : ℕ) : ℕ → ℕ → Bool
  | _, 0 => true
  | i, fuel + 1 =>
    if i * i ≤ num then
      if num % i = 0 || num % (i + 2) = 0 then false
      else isPrimeAux num (i + 6) fuel
    else true

/-- `isPrime` from the source: 6k±1 trial division. -/
def isPrime (num : ℕ) : Bool :=
  if num ≤ 1 then false
  else if num ≤ 3 then true
  else if num % 2 = 0 || num % 3 = 0 then false
  else isPrimeAux num 5 num

/-- Loop of `semiprimeFactors`: `for (let i = 2; i * i <= n; i++)`; the first
divisor `i` of `n` with both `i` and `n / i` prime is returned with its
cofactor.  A divisor whose pair is not prime-prime does not stop the loop. -/
def semiprimeFactorsAux (n : ℕ) : ℕ → ℕ → Option (ℕ × ℕ)
  | _, 0 => none
  | i, fuel + 1 =>
    if i * i ≤ n then
      if n % i = 0 && (isPrime i && isPrime (n / i)) then some (i, n / i)
      else semiprimeFactorsAux n (i + 1) fuel
    else none

/-- `semiprimeFactors` from the source: throws for `n ≤ 1`, otherwise trial
division up to `√n`; throws the not-a-semiprime `ValueError` (carrying `n`)
when the loop finds nothing. -/
def semiprimeFactors (n : ℕ) : Except VError (ℕ × ℕ) :=
  if n ≤ 1 then .error .inputTooSmall
  else
    match semiprimeFactorsAux n 2 n with
    | some pq => .ok pq
    | none => .error (.notSemiprime n)

/-- `fingerprint` from the source: `a = (p+q)/2`, `m = p*q`,
`delta = |p-q|`; returns `0.0` when `m = 0` or `a ≤ 1`, else
`delta² / (m · ln a)`.  (The `try/catch` around the formula is dead: none of
the real-number operations throws.) -/
noncomputable def fingerprint (p q : ℕ) : ℝ :=
  let a : ℝ := ((p : ℝ) + (q : ℝ)) / 2
  let m : ℝ := (p : ℝ) * (q : ℝ)
  let delta : ℝ := |(p : ℝ) - (q : ℝ)|
  if m = 0 ∨ a ≤ 1 then 0
  else delta ^ 2 / (m * Real.log a)

/-- One position of a compiled motif matcher: a wildcard (`[ACGT]`) or a
literal character. -/
inductive MTok where
  | wild
  | lit (c : Char)
deriving DecidableEq

/-- Whether one matcher position accepts one character. -/
def tokMatch : MTok → Char → Bool
  | .wild, c => isBase c
  | .lit p, c => p == c

/-- A token list accepts exactly the strings of its own length matching
position-wise. -/
def matchToks (toks : List MTok) (t : List Char) : Bool :=
  toks.length == t.length && (List.zip toks t).all fun x => tokMatch x.1 x.2

/-- The scanner's pattern compilation
`pamPattern.toUpperCase().replace(/N/g, '[ACGT]')`: every `'N'` becomes a
wildcard (the pattern is already uppercased by the caller here). -/
def scannerToks (pat : List Char) : List MTok :=
  pat.map fun c => if c = 'N' then .wild else .lit c

/-- The scorer's pattern compilation
`pam.toUpperCase().replace('N', '[ACGT]')`: a string-pattern
`String.replace` in JavaScript replaces only the FIRST occurrence, so only
the first `'N'` becomes a wildcard and later `'N'`s stay literal. -/
def scorerToks : List Char → List MTok
  | [] => []
  | c :: rest =>
    if c = 'N' then MTok.wild :: rest.map MTok.lit
    else MTok.lit c :: scorerToks rest

/-- The scanner's matcher applied at offset `i` of `s` (the unanchored regex
matches at `i` iff the `pat.length` characters from `i` satisfy the token
list, all tokens being single-character). -/
def patMatchAt (pat s : List Char) (i : ℕ) : Bool :=
  matchToks (scannerToks pat) (substrJS s i pat.length)

/-- The scorer's anchored regex test
`^pam.toUpperCase().replace('N','[ACGT]')$` applied to a string. -/
def scorerAccepts (pat t : List Char) : Bool :=
  matchToks (scorerToks pat) t

/-- The scanner's matcher as an anchored whole-string test (used to state
the matcher-equivalence claim). -/
def scannerAccepts (pat t : List Char) : Bool :=
  matchToks (scannerToks pat) t

/-- One window body of `analyzeSequenceForScore`'s loop (the `try` block):
extract the two codons at `i` and `i+3`, skip if either is short, encode
both, combine into `N = c1 * 64 + c2`, factor, and score; every thrown
error is caught and the window contributes `0`. -/
noncomputable def windowTerm (prot : List Char) (i : ℕ) : ℝ :=
  let codon1Str := substrJS prot i 3
  let codon2Str := substrJS prot (i + 3) 3
  if codon1Str.length ≠ 3 ∨ codon2Str.length ≠ 3 then 0
  else
    match codonToInt codon1Str with
    | .error _ => 0
    | .ok c1 =>
      match codonToInt codon2Str with
      | .error _ => 0
      | .ok c2 =>
        match semiprimeFactors (c1 * 64 + c2) with
        | .error _ => 0
        | .ok (p, q) => fingerprint p q

/-- The window loop `for (let i = 0; i <= protospacer.length - 6; i += step)`
accumulating `totalLambda`.  `fuel` bounds the iteration count; any fuel of
at least `protospacer.length + 1` gives the same value when `1 ≤ step`
(`scoreLoop_fuel_irrel`). -/
noncomputable def scoreLoop (prot : List Char) (step : ℕ) : ℕ → ℕ → ℝ
  | _, 0 => 0
  | i, fuel + 1 =>
    if i + 6 ≤ prot.length then windowTerm prot i + scoreLoop prot step (i + step) fuel
    else 0

/-- `analyzeSequenceForScore` with the loop fuel exposed: return `0.0` for
inputs shorter than 23; build the PAM regex from `pam` (first-`N` wildcard);
take the uppercased 20-symbol protospacer and 3-symbol PAM slice; return
`0.0` when the PAM slice fails the regex or the protospacer fails
`/^[ACGT]+$/`; otherwise run the window loop. -/
noncomputable def analyzeFuel (seq : List Char) (step : ℕ) (pam : List Char) (fuel : ℕ) : ℝ :=
  if seq.length < 23 then 0
  else if ¬(((substrJS seq 20 3).map Char.toUpper).length = 3 ∧
      scorerAccepts (pam.map Char.toUpper) ((substrJS seq 20 3).map Char.toUpper) = true) then 0
  else if ¬((substrJS seq 0 20).map Char.toUpper ≠ [] ∧
      ((substrJS seq 0 20).map Char.toUpper).all isBase = true) then 0
  else scoreLoop ((substrJS seq 0 20).map Char.toUpper) step 0 fuel

/-- `analyzeSequenceForScore` from the source (protospacer length is 20, so
fuel 21 covers every step size of at least 1). -/
noncomputable def analyzeSequenceForScore (seq : List Char) (step : ℕ) (pam : List Char) : ℝ :=
  analyzeFuel seq step pam 21

/-- Per-window value as the scoring claim describes it: the fingerprint of
the semiprime factorization of `codonToInt(s[i..i+3]) * 64 +
codonToInt(s[i+3..i+6])`, with `0` for a window without a semiprime
factorization. -/
noncomputable def claimWindowTerm (s : List Char) (i : ℕ) : ℝ :=
  match codonToInt (substrJS s i 3) with
  | .error _ => 0
  | .ok c1 =>
    match codonToInt (substrJS s (i + 3) 3) with
    | .error _ => 0
    | .ok c2 =>
      match semiprimeFactors (c1 * 64 + c2) with
      | .error _ => 0
      | .ok (p, q) => fingerprint p q

/-- Total score as the scoring claim describes it: the sum over the window
start offsets 0, 1, …, 14 of the 20-symbol upstream region. -/
noncomputable def claimTotal (s : List Char) : ℝ :=
  ∑ i ∈ Finset.range 15, claimWindowTerm s i

/-- Linear scan of `RegExp.exec`: the least match offset at or past `pos`,
tried one offset at a time.  `fuel` bounds the search; `findFrom` supplies
enough to cover the whole sequence. -/
def findFirstAux (pat s : List Char) : ℕ → ℕ → Option ℕ
  | _, 0 => none
  | pos, fuel + 1 =>
    if patMatchAt pat s pos then some pos
    else findFirstAux pat s (pos + 1) fuel

/-- The least offset `i ≥ pos` where the scanner's matcher matches `s`
(`none` when there is no further match): the behaviour of `pamRegex.exec`
with `lastIndex = pos`. -/
def findFrom (pat s : List Char) (pos : ℕ) : Option ℕ :=
  findFirstAux pat s pos (s.length + 1 - pos)

/-- The `while ((match = pamRegex.exec(sequence)) !== null)` loop of gRNA
discovery: after a match at `i` the regex `lastIndex` advances to
`i + pat.length`, so the next search resumes past the end of the match.
Returns the list of match offsets in scan order. -/
def scanFrom (pat s : List Char) : ℕ → ℕ → List ℕ
  | _, 0 => []
  | pos, fuel + 1 =>
    match findFrom pat s pos with
    | none => []
    | some i => i :: scanFrom pat s (i + pat.length) fuel

/-- A discovered gRNA candidate row: `protospacer`, `PAM`,
`sequence_location`. -/
structure GCand where
  protospacer : List Char
  pam : List Char
  loc : ℕ
deriving DecidableEq

/-- Outcome of `discoverGrnasFromFasta` (for a fixed loaded sequence):
either the early no-pattern return, the invalid-character error, the
no-candidates-found error, or the discovered candidate rows. -/
inductive DiscoverResult where
  | noPattern
  | invalidChar (c : Char) (idx : ℕ)
  | noCandidates
  | found (cands : List GCand)
deriving DecidableEq

/-- The candidate rows pushed by the discovery loop: one row per scan match
offset of at least 20, carrying the 20 symbols before the match, the
matched PAM text and the offset minus 20. -/
def discoverCands (seq0 pat0 : List Char) : List GCand :=
  ((scanFrom (pat0.map Char.toUpper) (seq0.map Char.toUpper) 0
      ((seq0.map Char.toUpper).length + 1)).filter fun i => decide (20 ≤ i)).map fun i =>
    { protospacer := substrJS (seq0.map Char.toUpper) (i - 20) 20,
      pam := substrJS (seq0.map Char.toUpper) i (pat0.map Char.toUpper).length,
      loc := i - 20 }

/-- `discoverGrnasFromFasta` from the source, on one sequence: empty pattern
returns early with no candidates and no error; the uppercased sequence is
checked once for a character outside `[ACGT]` (reported with
`sequence.indexOf` of that character); then the global regex scan collects,
for every match offset of at least 20, the 20 preceding symbols, the
matched PAM and the offset minus 20; an empty collection is reported as the
no-candidates error. -/
def discoverGrnas (seq0 pat0 : List Char) : DiscoverResult :=
  if pat0.isEmpty then .noPattern
  else
    match (seq0.map Char.toUpper).find? (fun c => !isBase c) with
    | some c => .invalidChar c ((seq0.map Char.toUpper).indexOf c)
    | none =>
      if (discoverCands seq0 pat0).isEmpty then .noCandidates
      else .found (discoverCands seq0 pat0)

/-- Decoder for the codon encoding (verification helper): the base with a
given value. -/
def dChar (n : ℕ) : Char :=
  if n = 0 then 'A' else if n = 1 then 'C' else if n = 2 then 'G' else 'T'

/-- Decoder for the codon encoding (verification helper): the codon with a
given value below 64. -/
def decodeCodon (n : ℕ) : List Char :=
  [dChar (n / 16), dChar ((n / 4) % 4), dChar (n % 4)]

/-- Semiprime: a product of exactly two primes, not necessarily distinct. -/
def IsSemiprime (n : ℕ) : Prop :=
  ∃ p q, Nat.Prime p ∧ Nat.Prime q ∧ p * q = n

/-- Concrete 23-symbol input for the scoring counterexample: upstream
`AAAACG` + 14 × `A`, then PAM slot `AAG`. -/
def seqC1 : List Char :=
  ['A', 'A', 'A', 'A', 'C', 'G'] ++ List.replicate 14 'A' ++ ['A', 'A', 'G']

/-- Concrete sequence for the scanner counterexample: 20 × `A` then
`GGGG`. -/
def seqC4 : List Char :=
  List.replicate 20 'A' ++ ['G', 'G', 'G', 'G']

/-! ### Character and list helpers -/

theorem isBase_cases {c : Char} (h : isBase c = true) :
    c = 'A' ∨ c = 'C' ∨ c = 'G' ∨ c = 'T' := by
  simp only [isBase, Bool.or_eq_true, beq_iff_eq] at h
  tauto

theorem toUpper_base {c : Char} (h : isBase c = true) : Char.toUpper c = c := by
  rcases isBase_cases h with rfl | rfl | rfl | rfl <;> decide

theorem map_toUpper_of_all_base {l : List Char} (h : l.all isBase = true) :
    l.map Char.toUpper = l := by
  induction l with
  | nil => rfl
  | cons c t ih =>
    simp only [List.all_cons, Bool.and_eq_true] at h
    simp [toUpper_base h.1, ih h.2]

theorem baseVal_lt_four {c : Char} (h : isBase c = true) : baseVal c < 4 := by
  rcases isBase_cases h with rfl | rfl | rfl | rfl <;> decide

theorem dChar_baseVal {c : Char} (h : isBase c = true) : dChar (baseVal c) = c := by
  rcases isBase_cases h with rfl | rfl | rfl | rfl <;> decide

theorem baseVal_dChar {n : ℕ} (h : n < 4) : baseVal (dChar n) = n := by
  interval_cases n <;> decide

theorem isBase_dChar (n : ℕ) : isBase (dChar n) = true := by
  unfold dChar
  split
  · decide
  · split
    · decide
    · split <;> decide

/-! ### Correctness of the 6k±1 primality test -/

theorem isPrimeAux_detect (num : ℕ) :
    ∀ fuel i, 1 ≤ i → num < 6 * fuel + i * i → isPrimeAux num i fuel = true →
      ∀ m t, (m = i + 6 * t ∨ m = i + 2 + 6 * t) → m * m ≤ num → num % m ≠ 0 := by
  intro fuel
  induction fuel with
  | zero =>
    intro i hi hinv _ m t hm hmn
    have him : i ≤ m := by omega
    have : i * i ≤ m * m := Nat.mul_le_mul him him
    omega
  | succ fuel ih =>
    intro i hi hinv haux m t hm hmn
    rw [isPrimeAux] at haux
    by_cases hcase : i * i ≤ num
    · rw [if_pos hcase] at haux
      by_cases hdiv : num % i = 0 || num % (i + 2) = 0
      · rw [if_pos hdiv] at haux; exact absurd haux (by simp)
      · rw [if_neg hdiv] at haux
        simp only [Bool.or_eq_true, not_or] at hdiv
        rcases Nat.eq_zero_or_pos t with rfl | ht
        · rcases hm with rfl | rfl
          · simpa using hdiv.1
          · simpa using hdiv.2
        · have hm' : m = (i + 6) + 6 * (t - 1) ∨ m = (i + 6) + 2 + 6 * (t - 1) := by
            omega
          exact ih (i + 6) (by omega) (by nlinarith) haux m (t - 1) hm' hmn
    · have him : i ≤ m := by omega
      have : i * i ≤ m * m := Nat.mul_le_mul him him
      omega

theorem isPrimeAux_of_no_divisor {num : ℕ} (h5 : 5 ≤ num)
    (h : ∀ k, 2 ≤ k → k < num → num % k ≠ 0) :
    ∀ fuel i, 2 ≤ i → isPrimeAux num i fuel = true := by
  intro fuel
  induction fuel with
  | zero => intro i _; rfl
  | succ fuel ih =>
    intro i hi
    rw [isPrimeAux]
    by_cases hcase : i * i ≤ num
    · rw [if_pos hcase]
      have h2i : 2 * i ≤ i * i := Nat.mul_le_mul_right i hi
      have hilt : i < num := by omega
      have hi2lt : i + 2 < num := by nlinarith
      have h1 : num % i ≠ 0 := h i hi hilt
      have h2 : num % (i + 2) ≠ 0 := h (i + 2) (by omega) hi2lt
      rw [if_neg (by simp [h1, h2])]
      exact ih (i + 6) (by omega)
    · rw [if_neg hcase]

theorem prime_mod_six {m : ℕ} (hm : Nat.Prime m) (h5 : 5 ≤ m) :
    m % 6 = 1 ∨ m % 6 = 5 := by
  have h2 : m % 2 ≠ 0 := by
    intro h
    have : (2 : ℕ) ∣ m := Nat.dvd_of_mod_eq_zero h
    rcases (Nat.Prime.eq_one_or_self_of_dvd hm 2 this) with h' | h' <;> omega
  have h3 : m % 3 ≠ 0 := by
    intro h
    have : (3 : ℕ) ∣ m := Nat.dvd_of_mod_eq_zero h
    rcases (Nat.Prime.eq_one_or_self_of_dvd hm 3 this) with h' | h' <;> omega
  have e2 : m % 6 % 2 = m % 2 := Nat.mod_mod_of_dvd m (by norm_num)
  have e3 : m % 6 % 3 = m % 3 := Nat.mod_mod_of_dvd m (by norm_num)
  have : m % 6 < 6 := Nat.mod_lt _ (by norm_num)
  interval_cases h : m % 6 <;> omega

theorem isPrime_iff_prime (n : ℕ) : isPrime n = true ↔ Nat.Prime n := by
  constructor
  · intro h
    rw [isPrime] at h
    by_cases h1 : n ≤ 1
    · rw [if_pos h1] at h; exact absurd h (by simp)
    rw [if_neg h1] at h
    by_cases h3 : n ≤ 3
    · interval_cases n
      · exact Nat.prime_two
      · exact Nat.prime_three
    rw [if_neg h3] at h
    by_cases h23 : n % 2 = 0 || n % 3 = 0
    · rw [if_pos h23] at h; exact absurd h (by simp)
    rw [if_neg h23] at h
    simp only [Bool.or_eq_true, decide_eq_true_eq, not_or] at h23
    obtain ⟨h2n, h3n⟩ := h23
    by_contra hnp
    set m := n.minFac with hm
    have hmp : Nat.Prime m := Nat.minFac_prime (by omega)
    have hmd : m ∣ n := Nat.minFac_dvd n
    have hmsq : m * m ≤ n := by
      have := Nat.minFac_sq_le_self (by omega : 0 < n) hnp
      nlinarith [this]
    obtain ⟨k, hk⟩ := hmd
    have hnm : n % m = 0 := by rw [hk]; exact Nat.mul_mod_right m k
    have hm2 : m ≠ 2 := by intro he; rw [he] at hk; omega
    have hm3 : m ≠ 3 := by intro he; rw [he] at hk; omega
    have hm5 : 5 ≤ m := by
      have h2 := hmp.two_le
      have hne4 : m ≠ 4 := by
        intro he; rw [he] at hmp; exact absurd hmp (by norm_num)
      omega
    rcases prime_mod_six hmp hm5 with h6 | h6
    · have ht : m = 5 + 2 + 6 * (m / 6 - 1) := by omega
      exact isPrimeAux_detect n n 5 (by omega) (by nlinarith) h m (m / 6 - 1)
        (Or.inr ht) hmsq hnm
    · have ht : m = 5 + 6 * (m / 6) := by omega
      exact isPrimeAux_detect n n 5 (by omega) (by nlinarith) h m (m / 6)
        (Or.inl ht) hmsq hnm
  · intro hp
    rw [isPrime]
    have h2 := hp.two_le
    rw [if_neg (by omega)]
    by_cases h3 : n ≤ 3
    · rw [if_pos h3]
    · rw [if_neg h3]
      have h5 : 5 ≤ n := by
        have : n ≠ 4 := by
          intro he; rw [he] at hp; exact absurd hp (by norm_num)
        omega
      have hnd : ∀ k, 2 ≤ k → k < n → n % k ≠ 0 := by
        intro k hk2 hkn hmod
        have hdvd : k ∣ n := Nat.dvd_of_mod_eq_zero hmod
        rcases hp.eq_one_or_self_of_dvd k hdvd with h | h <;> omega
      have hmod2 : ¬n % 2 = 0 := hnd 2 (by omega) (by omega)
      have hmod3 : ¬n % 3 = 0 := hnd 3 (by omega) (by omega)
      rw [if_neg (by simp [hmod2, hmod3])]
      exact isPrimeAux_of_no_divisor h5 hnd n 5 (by omega)

/-! ### Correctness of the semiprime decomposer -/

theorem semiprimeFactorsAux_found {n j : ℕ} (hjn : j * j ≤ n)
    (hgood : (n % j = 0 && (isPrime j && isPrime (n / j))) = true)
    (hmin : ∀ k, 2 ≤ k → k < j → (n % k = 0 && (isPrime k && isPrime (n / k))) = false) :
    ∀ fuel i, 2 ≤ i → i ≤ j → n < fuel + i * i →
      semiprimeFactorsAux n i fuel = some (j, n / j) := by
  intro fuel
  induction fuel with
  | zero =>
    intro i _ hij hinv
    have : i * i ≤ j * j := Nat.mul_le_mul hij hij
    omega
  | succ fuel ih =>
    intro i hi2 hij hinv
    have hii : i * i ≤ n := le_trans (Nat.mul_le_mul hij hij) hjn
    rw [semiprimeFactorsAux, if_pos hii]
    rcases eq_or_lt_of_le hij with rfl | hlt
    · rw [if_pos hgood]
    · rw [if_neg (by simp [hmin i hi2 hlt])]
      exact ih (i + 1) (by omega) (by omega) (by nlinarith)

theorem semiprimeFactorsAux_none {n : ℕ}
    (h : ∀ k, 2 ≤ k → k * k ≤ n → (n % k = 0 && (isPrime k && isPrime (n / k))) = false) :
    ∀ fuel i, 2 ≤ i → semiprimeFactorsAux n i fuel = none := by
  intro fuel
  induction fuel with
  | zero => intro i _; rfl
  | succ fuel ih =>
    intro i hi2
    rw [semiprimeFactorsAux]
    by_cases hii : i * i ≤ n
    · rw [if_pos hii, if_neg (by simp [h i hi2 hii]), ih (i + 1) (by omega)]
    · rw [if_neg hii]

theorem minFac_of_semiprime {p q : ℕ} (hp : Nat.Prime p) (hq : Nat.Prime q)
    (hpq : p ≤ q) : (p * q).minFac = p := by
  have hd : p ∣ p * q := Dvd.intro q rfl
  have hle : (p * q).minFac ≤ p := Nat.minFac_le_of_dvd hp.two_le hd
  have hne1 : p * q ≠ 1 := by
    have := hp.two_le; have := hq.two_le; nlinarith
  have hmp : Nat.Prime (p * q).minFac := Nat.minFac_prime hne1
  have hmd : (p * q).minFac ∣ p * q := Nat.minFac_dvd _
  rcases (Nat.Prime.dvd_mul hmp).mp hmd with h | h
  · exact ((Nat.prime_dvd_prime_iff_eq hmp hp).mp h)
  · have := (Nat.prime_dvd_prime_iff_eq hmp hq).mp h
    omega


/-- C2: for every integer N with 2 ≤ N ≤ 4095, the Semiprime Decomposer
returns, when N is a product of exactly two primes (with multiplicity),
exactly the pair (p, q) with p the smallest prime factor, p ≤ q, both
prime and p·q = N; when N is not such a product it fails with the
Not-A-Semiprime error carrying N. -/
theorem semiprimeFactors_spec (n : ℕ) (h2 : 2 ≤ n) (h4095 : n ≤ 4095) :
    (IsSemiprime n →
      semiprimeFactors n = .ok (n.minFac, n / n.minFac) ∧
      Nat.Prime n.minFac ∧ Nat.Prime (n / n.minFac) ∧
      n.minFac ≤ n / n.minFac ∧ n.minFac * (n / n.minFac) = n) ∧
    (¬IsSemiprime n → semiprimeFactors n = .error (.notSemiprime n)) := by
  constructor
  · rintro ⟨p, q, hp, hq, rfl⟩
    rcases le_total p q with hpq | hpq
    · have hmf : (p * q).minFac = p := minFac_of_semiprime hp hq hpq
      have hdvd : p ∣ p * q := Dvd.intro q rfl
      have hdiv : p * q / p = q := by
        rw [Nat.mul_div_cancel_left q hp.pos]
      have hgood : ((p * q) % p = 0 && (isPrime p && isPrime (p * q / p))) = true := by
        rw [hdiv]
        simp [Nat.mul_mod_right, (isPrime_iff_prime p).mpr hp, (isPrime_iff_prime q).mpr hq]
      have hmin : ∀ k, 2 ≤ k → k < p →
          ((p * q) % k = 0 && (isPrime k && isPrime (p * q / k))) = false := by
        intro k hk2 hkp
        have : ¬(p * q) % k = 0 := by
          intro hmod
          have hkd : k ∣ p * q := Nat.dvd_of_mod_eq_zero hmod
          have := Nat.minFac_le_of_dvd hk2 hkd
          omega
        simp [this]
      have hrun : semiprimeFactorsAux (p * q) 2 (p * q) = some (p, p * q / p) := by
        have hp2 := hp.two_le
        have hq2 := hq.two_le
        exact semiprimeFactorsAux_found (by nlinarith) hgood hmin (p * q) 2 le_rfl
          hp2 (by nlinarith)
      rw [semiprimeFactors, if_neg (by omega)]
      rw [hmf, hrun, hdiv]
      exact ⟨rfl, hp, hq, hpq, rfl⟩
    · have hcomm : q * p = p * q := Nat.mul_comm q p
      have hmf : (p * q).minFac = q := by rw [← hcomm]; exact minFac_of_semiprime hq hp hpq
      have hdiv : p * q / q = p := by
        rw [← hcomm]; exact Nat.mul_div_cancel_left p hq.pos
      have hgood : ((p * q) % q = 0 && (isPrime q && isPrime (p * q / q))) = true := by
        rw [hdiv]
        have : (p * q) % q = 0 := by rw [← hcomm]; exact Nat.mul_mod_right q p
        simp [this, (isPrime_iff_prime p).mpr hp, (isPrime_iff_prime q).mpr hq]
      have hmin : ∀ k, 2 ≤ k → k < q →
          ((p * q) % k = 0 && (isPrime k && isPrime (p * q / k))) = false := by
        intro k hk2 hkp
        have : ¬(p * q) % k = 0 := by
          intro hmod
          have hkd : k ∣ p * q := Nat.dvd_of_mod_eq_zero hmod
          have := Nat.minFac_le_of_dvd hk2 hkd
          omega
        simp [this]
      have hrun : semiprimeFactorsAux (p * q) 2 (p * q) = some (q, p * q / q) := by
        have hp2 := hp.two_le
        have hq2 := hq.two_le
        exact semiprimeFactorsAux_found (by nlinarith) hgood hmin (p * q) 2 le_rfl
          hq2 (by nlinarith)
      rw [semiprimeFactors, if_neg (by omega)]
      rw [hmf, hrun, hdiv]
      exact ⟨rfl, hq, hp, hpq, Nat.mul_comm q p⟩
  · intro hns
    have hfail : ∀ k, 2 ≤ k → k * k ≤ n →
        (n % k = 0 && (isPrime k && isPrime (n / k))) = false := by
      intro k hk2 hkk
      by_contra hgood
      rw [Bool.not_eq_false, Bool.and_eq_true, Bool.and_eq_true] at hgood
      obtain ⟨hmod, hpk, hpq⟩ := hgood
      have hkd : k ∣ n := Nat.dvd_of_mod_eq_zero (by simpa using hmod)
      exact hns ⟨k, n / k, (isPrime_iff_prime k).mp hpk, (isPrime_iff_prime (n / k)).mp hpq,
        Nat.mul_div_cancel' hkd⟩
    rw [semiprimeFactors, if_neg (by omega),
      semiprimeFactorsAux_none hfail n 2 le_rfl]

/-- C2 witness: at N = 6 = 2·3 the decomposer returns (2, 3). -/
theorem semiprimeFactors_spec_witness :
    semiprimeFactors 6 = .ok (2, 3) ∧ Nat.Prime 2 ∧ Nat.Prime 3 := by
  have h := (semiprimeFactors_spec 6 (by norm_num) (by norm_num)).1
    ⟨2, 3, by norm_num, by norm_num, by norm_num⟩
  have e1 : Nat.minFac 6 = 2 := by norm_num
  refine ⟨?_, by norm_num, by norm_num⟩
  rw [h.1, e1]

/-! ### Codon encoder -/

theorem length_three_destruct {l : List Char} (h : l.length = 3) :
    ∃ a b c, l = [a, b, c] := by
  match l, h with
  | [a, b, c], _ => exact ⟨a, b, c, rfl⟩

theorem codonVal_lt_64 {l : List Char} (h3 : l.length = 3) (hb : l.all isBase = true) :
    codonVal l < 64 := by
  obtain ⟨a, b, c, rfl⟩ := length_three_destruct h3
  simp only [List.all_cons, List.all_nil, Bool.and_eq_true, Bool.and_true] at hb
  have ha := baseVal_lt_four hb.1
  have hbb := baseVal_lt_four hb.2.1
  have hc := baseVal_lt_four hb.2.2
  simp only [codonVal]
  omega

theorem codonVal_inj {l1 l2 : List Char} (h1 : l1.length = 3) (hb1 : l1.all isBase = true)
    (h2 : l2.length = 3) (hb2 : l2.all isBase = true) (he : codonVal l1 = codonVal l2) :
    l1 = l2 := by
  obtain ⟨a, b, c, rfl⟩ := length_three_destruct h1
  obtain ⟨d, e, f, rfl⟩ := length_three_destruct h2
  simp only [List.all_cons, List.all_nil, Bool.and_eq_true, Bool.and_true] at hb1 hb2
  have ha := baseVal_lt_four hb1.1
  have hbb := baseVal_lt_four hb1.2.1
  have hc := baseVal_lt_four hb1.2.2
  have hd := baseVal_lt_four hb2.1
  have he' := baseVal_lt_four hb2.2.1
  have hf := baseVal_lt_four hb2.2.2
  simp only [codonVal] at he
  have e1 : baseVal a = baseVal d := by omega
  have e2 : baseVal b = baseVal e := by omega
  have e3 : baseVal c = baseVal f := by omega
  have : a = d := by
    rw [← dChar_baseVal hb1.1, ← dChar_baseVal hb2.1, e1]
  have : b = e := by
    rw [← dChar_baseVal hb1.2.1, ← dChar_baseVal hb2.2.1, e2]
  have : c = f := by
    rw [← dChar_baseVal hb1.2.2, ← dChar_baseVal hb2.2.2, e3]
  subst_vars
  rfl

theorem decodeCodon_all_base (n : ℕ) : (decodeCodon n).all isBase = true := by
  simp [decodeCodon, isBase_dChar]

theorem codonVal_decodeCodon {n : ℕ} (h : n < 64) : codonVal (decodeCodon n) = n := by
  have h1 : n / 16 < 4 := by omega
  have h2 : (n / 4) % 4 < 4 := by omega
  have h3 : n % 4 < 4 := by omega
  simp only [decodeCodon, codonVal, baseVal_dChar h1, baseVal_dChar h2, baseVal_dChar h3]
  omega

/-- C3: the codon encoder accepts exactly the case-insensitive 3-letter
A/C/G/T strings, mapping them by the fixed positional weighting
first·16 + second·4 + third (A=0, C=1, G=2, T=3) — a bijection from the 64
uppercase codons onto [0, 63] — and fails on every other string with the
Invalid-Codon error naming the (uppercased) offending string. -/
theorem codonToInt_spec :
    (∀ s : List Char,
      ((s.map Char.toUpper).length = 3 ∧ (s.map Char.toUpper).all isBase = true →
        codonToInt s = .ok (codonVal (s.map Char.toUpper)) ∧
        codonVal (s.map Char.toUpper) < 64) ∧
      (¬((s.map Char.toUpper).length = 3 ∧ (s.map Char.toUpper).all isBase = true) →
        codonToInt s = .error (.invalidCodon (s.map Char.toUpper)))) ∧
    (∀ a b c : Char, codonVal [a, b, c] = baseVal a * 16 + baseVal b * 4 + baseVal c) ∧
    (∀ l1 l2 : List Char, l1.length = 3 → l1.all isBase = true →
      l2.length = 3 → l2.all isBase = true → codonVal l1 = codonVal l2 → l1 = l2) ∧
    (∀ n : ℕ, n < 64 → ∃ l : List Char, l.length = 3 ∧ l.all isBase = true ∧
      codonToInt l = .ok n) := by
  refine ⟨fun s => ⟨fun h => ?_, fun h => ?_⟩, fun a b c => rfl,
    fun l1 l2 => codonVal_inj, fun n hn => ?_⟩
  · rw [codonToInt, if_pos h]
    exact ⟨rfl, codonVal_lt_64 h.1 h.2⟩
  · rw [codonToInt, if_neg h]
  · refine ⟨decodeCodon n, rfl, decodeCodon_all_base n, ?_⟩
    have hup : (decodeCodon n).map Char.toUpper = decodeCodon n :=
      map_toUpper_of_all_base (decodeCodon_all_base n)
    rw [codonToInt]
    rw [if_pos (by rw [hup]; exact ⟨rfl, decodeCodon_all_base n⟩)]
    rw [hup, codonVal_decodeCodon hn]

/-- C3 witness: the lowercase codon "acg" encodes to 6 and the invalid
string "AXG" is rejected with the Invalid-Codon error. -/
theorem codonToInt_spec_witness :
    codonToInt ['a', 'c', 'g'] = .ok 6 ∧
    codonToInt ['A', 'X', 'G'] = .error (.invalidCodon ['A', 'X', 'G']) := by
  constructor
  · have h := ((codonToInt_spec.1 ['a', 'c', 'g']).1 (by decide)).1
    rw [h]; rfl
  · have h := (codonToInt_spec.1 ['A', 'X', 'G']).2 (by decide)
    rw [h]; rfl

/-! ### Fingerprint function -/

/-- C7: for all non-negative integers p, q the fingerprint returns exactly
0.0 (not an error) when p·q = 0 or (p+q)/2 ≤ 1, otherwise it returns
(p−q)² / ((p·q) · ln((p+q)/2)); the result is never negative. -/
theorem fingerprint_spec (p q : ℕ) :
    ((p : ℝ) * (q : ℝ) = 0 ∨ ((p : ℝ) + (q : ℝ)) / 2 ≤ 1 → fingerprint p q = 0) ∧
    (¬((p : ℝ) * (q : ℝ) = 0 ∨ ((p : ℝ) + (q : ℝ)) / 2 ≤ 1) →
      fingerprint p q =
        ((p : ℝ) - (q : ℝ)) ^ 2 / (((p : ℝ) * (q : ℝ)) * Real.log (((p : ℝ) + (q : ℝ)) / 2))) ∧
    0 ≤ fingerprint p q := by
  refine ⟨fun h => ?_, fun h => ?_, ?_⟩
  · rw [fingerprint, if_pos h]
  · rw [fingerprint, if_neg h, sq_abs]
  · rw [fingerprint]
    by_cases h : (p : ℝ) * (q : ℝ) = 0 ∨ ((p : ℝ) + (q : ℝ)) / 2 ≤ 1
    · rw [if_pos h]
    · rw [if_neg h]
      push_neg at h
      have hm : 0 < (p : ℝ) * (q : ℝ) := by
        rcases lt_or_le 0 ((p : ℝ) * (q : ℝ)) with h' | h'
        · exact h'
        · exact absurd (le_antisymm h' (by positivity)) h.1
      have hl : 0 < Real.log (((p : ℝ) + (q : ℝ)) / 2) := Real.log_pos h.2
      have hnum : (0 : ℝ) ≤ |(p : ℝ) - (q : ℝ)| ^ 2 := by positivity
      exact div_nonneg hnum (le_of_lt (mul_pos hm hl))

/-- C7 witness: fingerprint 0 5 and fingerprint 1 1 are 0; fingerprint 2 3
equals the closed formula and is non-negative. -/
theorem fingerprint_spec_witness :
    fingerprint 0 5 = 0 ∧ fingerprint 1 1 = 0 ∧
    fingerprint 2 3 =
      ((2 : ℝ) - (3 : ℝ)) ^ 2 / (((2 : ℝ) * (3 : ℝ)) * Real.log (((2 : ℝ) + (3 : ℝ)) / 2)) ∧
    0 ≤ fingerprint 2 3 := by
  refine ⟨(fingerprint_spec 0 5).1 (by norm_num), (fingerprint_spec 1 1).1 (by norm_num),
    ?_, (fingerprint_spec 2 3).2.2⟩
  have h := (fingerprint_spec 2 3).2.1 (by push_neg; constructor <;> norm_num)
  simpa using h

/-! ### Matcher equivalence -/

theorem matchToks_nil (t : List Char) :
    matchToks [] t = t.isEmpty := by
  cases t <;> rfl

theorem matchToks_cons (tok : MTok) (toks : List MTok) (t : List Char) :
    matchToks (tok :: toks) t =
      match t with
      | [] => false
      | c :: cs => tokMatch tok c && matchToks toks cs := by
  cases t with
  | nil => rfl
  | cons c cs =>
    simp only [matchToks, List.zip_cons_cons, List.all_cons, List.length_cons]
    rw [show ((toks.length + 1 : ℕ) == cs.length + 1) = (toks.length == cs.length) by
      simp [Nat.beq_eq]]
    rcases Bool.eq_false_or_eq_true (tokMatch tok c) with h | h <;>
      rcases Bool.eq_false_or_eq_true (matchToks toks cs) with h' | h' <;>
      simp_all [matchToks]

theorem scannerToks_no_wild {pat : List Char} (h : pat.count 'N' = 0) :
    scannerToks pat = pat.map MTok.lit := by
  induction pat with
  | nil => rfl
  | cons c rest ih =>
    rw [List.count_cons] at h
    have hc : c ≠ 'N' := by
      intro he; subst he; simp at h
    have hr : rest.count 'N' = 0 := by omega
    simp [scannerToks, hc, ← ih hr, scannerToks]

theorem matcher_equiv_aux :
    ∀ pat : List Char, pat.count 'N' ≤ 1 →
      ∀ t, matchToks (scannerToks pat) t = matchToks (scorerToks pat) t := by
  intro pat
  induction pat with
  | nil => intro _ _; rfl
  | cons c rest ih =>
    intro hn t
    by_cases hc : c = 'N'
    · subst hc
      rw [List.count_cons] at hn
      have hr : rest.count 'N' = 0 := by simp at hn; omega
      rw [show scorerToks ('N' :: rest) = MTok.wild :: rest.map MTok.lit from by
        simp [scorerToks]]
      rw [show scannerToks ('N' :: rest) = MTok.wild :: scannerToks rest from by
        simp [scannerToks]]
      rw [scannerToks_no_wild hr]
    · have hr : rest.count 'N' ≤ 1 := by
        rw [List.count_cons] at hn
        have hb : (c == 'N') = false := by simp [hc]
        rw [hb] at hn
        simpa using hn
      rw [show scorerToks (c :: rest) = MTok.lit c :: scorerToks rest from by
        simp [scorerToks, hc]]
      rw [show scannerToks (c :: rest) = MTok.lit c :: scannerToks rest from by
        simp [scannerToks, hc]]
      rw [matchToks_cons, matchToks_cons]
      cases t with
      | nil => rfl
      | cons d ds =>
        exact congrArg (fun b => tokMatch (MTok.lit c) d && b) (ih hr ds)

/-- C8 (amended): for every motif pattern over {A,C,G,T,N} containing at
most one wildcard symbol 'N', the scanner's matcher and the scorer's
defensive re-check matcher accept exactly the same strings. -/
theorem matcher_equiv_of_count_le_one (pat t : List Char)
    (hpat : ∀ c ∈ pat, c ∈ (['A', 'C', 'G', 'T', 'N'] : List Char))
    (hn : pat.count 'N' ≤ 1) :
    scannerAccepts pat t = scorerAccepts pat t :=
  matcher_equiv_aux pat hn t

/-- C8 counterexample: on the pattern "NNG" the scanner's matcher accepts
"AAG" but the scorer's re-check matcher rejects it, so the two matchers are
not equivalent for every pattern over {A,C,G,T,N}. -/
theorem matcher_equiv_counterexample :
    scannerAccepts ['N', 'N', 'G'] ['A', 'A', 'G'] = true ∧
    scorerAccepts ['N', 'N', 'G'] ['A', 'A', 'G'] = false :=
  ⟨rfl, rfl⟩

/-- C8 witness: on the single-wildcard pattern "NGG" both matchers agree on
"AGG". -/
theorem matcher_equiv_witness :
    scannerAccepts ['N', 'G', 'G'] ['A', 'G', 'G'] =
      scorerAccepts ['N', 'G', 'G'] ['A', 'G', 'G'] ∧
    scannerAccepts ['N', 'G', 'G'] ['A', 'G', 'G'] = true :=
  ⟨matcher_equiv_of_count_le_one ['N', 'G', 'G'] ['A', 'G', 'G'] (by decide) (by decide), rfl⟩

/-! ### Window scorer -/

theorem substrJS_length (l : List Char) (i n : ℕ) :
    (substrJS l i n).length = min n (l.length - i) := by
  simp [substrJS]

theorem substrJS_take20 (s : List Char) (j n : ℕ) (h : j + n ≤ 20) :
    substrJS (substrJS s 0 20) j n = substrJS s j n := by
  simp only [substrJS, List.drop_zero, List.drop_take, List.take_take]
  congr 1
  omega

theorem scoreLoop_zero (prot : List Char) (step i : ℕ) :
    scoreLoop prot step i 0 = 0 := rfl

theorem scoreLoop_succ (prot : List Char) (step i fuel : ℕ) :
    scoreLoop prot step i (fuel + 1) =
      if i + 6 ≤ prot.length then windowTerm prot i + scoreLoop prot step (i + step) fuel
      else 0 := rfl

theorem scoreLoop_fuel_irrel (prot : List Char) (step : ℕ) (hstep : 1 ≤ step) :
    ∀ f1 f2 i, prot.length + 1 ≤ i + f1 → prot.length + 1 ≤ i + f2 →
      scoreLoop prot step i f1 = scoreLoop prot step i f2 := by
  intro f1
  induction f1 with
  | zero =>
    intro f2 i h1 h2
    cases f2 with
    | zero => rfl
    | succ f2 => rw [scoreLoop_zero, scoreLoop_succ, if_neg (by omega)]
  | succ f1 ih =>
    intro f2 i h1 h2
    cases f2 with
    | zero => rw [scoreLoop_zero, scoreLoop_succ, if_neg (by omega)]
    | succ f2 =>
      rw [scoreLoop_succ, scoreLoop_succ]
      by_cases hc : i + 6 ≤ prot.length
      · rw [if_pos hc, if_pos hc, ih f2 (i + step) (by omega) (by omega)]
      · rw [if_neg hc, if_neg hc]

theorem scoreLoop_one_eq_sum {prot : List Char} (hl : prot.length = 20) :
    ∀ fuel i, 15 ≤ i + fuel →
      scoreLoop prot 1 i fuel = ∑ j ∈ Finset.Ico i 15, windowTerm prot j := by
  intro fuel
  induction fuel with
  | zero =>
    intro i h
    rw [scoreLoop_zero, Finset.Ico_eq_empty (by omega), Finset.sum_empty]
  | succ fuel ih =>
    intro i h
    rw [scoreLoop_succ, hl]
    by_cases hc : i + 6 ≤ 20
    · rw [if_pos hc, ih (i + 1) (by omega),
        Finset.sum_eq_sum_Ico_succ_bot (by omega : i < 15) (windowTerm prot)]
    · rw [if_neg hc, Finset.Ico_eq_empty (by omega), Finset.sum_empty]

theorem windowTerm_eq_claim {s : List Char} (hlen : s.length = 23) {j : ℕ}
    (hj : j + 6 ≤ 20) :
    windowTerm (substrJS s 0 20) j = claimWindowTerm s j := by
  rw [windowTerm, claimWindowTerm]
  rw [substrJS_take20 s j 3 (by omega), substrJS_take20 s (j + 3) 3 (by omega)]
  rw [if_neg (by
    rw [substrJS_length, substrJS_length]
    omega)]

/-- C6: `analyzeSequenceForScore` on an input shorter than 23 symbols, or
whose symbols at positions 21–23 fail the defensive PAM re-check, returns
total score exactly 0.0 (the embedding is a total function: no error
reaches the caller). -/
theorem score_zero_on_bad_candidate (seq : List Char) (step : ℕ) (pam : List Char)
    (h : seq.length < 23 ∨
      scorerAccepts (pam.map Char.toUpper) ((substrJS seq 20 3).map Char.toUpper) = false) :
    analyzeSequenceForScore seq step pam = 0 := by
  rw [analyzeSequenceForScore, analyzeFuel]
  rcases h with h | h
  · rw [if_pos h]
  · by_cases hlen : seq.length < 23
    · rw [if_pos hlen]
    · rw [if_neg hlen, if_pos (by
        intro hcon
        rw [h] at hcon
        exact absurd hcon.2 (by simp))]

/-- C6 witness: the 4-symbol input "ACGT" scores 0.0, and a 23-symbol input
whose PAM slot "AAT" fails the "NGG" re-check scores 0.0. -/
theorem score_zero_on_bad_candidate_witness :
    analyzeSequenceForScore ['A', 'C', 'G', 'T'] 1 ['N', 'G', 'G'] = 0 ∧
    analyzeSequenceForScore (List.replicate 20 'A' ++ ['A', 'A', 'T']) 1 ['N', 'G', 'G'] = 0 := by
  constructor
  · exact score_zero_on_bad_candidate _ 1 _ (Or.inl (by decide))
  · exact score_zero_on_bad_candidate _ 1 _ (Or.inr (by decide))

/-- C10: `analyzeSequenceForScore` is total — its embedding is a function
into ℝ in which every per-window error is absorbed by the catch in
`windowTerm`/`scoreLoop`, and for every input string, every step ≥ 1 and
every motif pattern over {A,C,G,T,N} the window loop terminates: its value
does not depend on the fuel once the fuel covers the protospacer. -/
theorem analyze_total (seq : List Char) (step : ℕ) (pam : List Char) (hstep : 1 ≤ step)
    (hpam : ∀ c ∈ pam, Char.toUpper c ∈ (['A', 'C', 'G', 'T', 'N'] : List Char)) :
    ∀ fuel, 21 ≤ fuel → analyzeFuel seq step pam fuel = analyzeSequenceForScore seq step pam := by
  intro fuel hfuel
  rw [analyzeSequenceForScore, analyzeFuel, analyzeFuel]
  by_cases h1 : seq.length < 23
  · rw [if_pos h1, if_pos h1]
  rw [if_neg h1, if_neg h1]
  by_cases h2 : ¬(((substrJS seq 20 3).map Char.toUpper).length = 3 ∧
      scorerAccepts (pam.map Char.toUpper) ((substrJS seq 20 3).map Char.toUpper) = true)
  · rw [if_pos h2, if_pos h2]
  rw [if_neg h2, if_neg h2]
  by_cases h3 : ¬((substrJS seq 0 20).map Char.toUpper ≠ [] ∧
      ((substrJS seq 0 20).map Char.toUpper).all isBase = true)
  · rw [if_pos h3, if_pos h3]
  rw [if_neg h3, if_neg h3]
  have hplen : ((substrJS seq 0 20).map Char.toUpper).length ≤ 20 := by
    rw [List.length_map, substrJS_length]
    omega
  exact scoreLoop_fuel_irrel _ step hstep fuel 21 0 (by omega) (by omega)

/-- C10 witness: with fuel 50 the analysis of a concrete 23-symbol input
agrees with the canonical run. -/
theorem analyze_total_witness :
    analyzeFuel (List.replicate 20 'A' ++ ['A', 'G', 'G']) 1 ['N', 'G', 'G'] 50 =
      analyzeSequenceForScore (List.replicate 20 'A' ++ ['A', 'G', 'G']) 1 ['N', 'G', 'G'] :=
  analyze_total _ 1 _ (by norm_num) (by decide) 50 (by norm_num)

/-- C1 (amended): for every 23-symbol input whose first 20 symbols are
(uppercase) A/C/G/T and whose last 3 symbols pass the scorer's PAM
re-check (the regex in which only the first 'N' of the pattern is a
wildcard), `analyzeSequenceForScore` with step 1 returns the sum over the
window offsets 0, 1, …, 14 of the fingerprint of the semiprime
factorization of the window integer, a window without a semiprime
factorization contributing exactly 0 without aborting the rest. -/
theorem analyze_step_one_eq_claim_sum (s pam : List Char)
    (hlen : s.length = 23)
    (hbase : (substrJS s 0 20).all isBase = true)
    (hpamchars : ∀ c ∈ pam, Char.toUpper c ∈ (['A', 'C', 'G', 'T', 'N'] : List Char))
    (hpam : scorerAccepts (pam.map Char.toUpper) ((substrJS s 20 3).map Char.toUpper) = true) :
    analyzeSequenceForScore s 1 pam = claimTotal s := by
  rw [analyzeSequenceForScore, analyzeFuel]
  rw [if_neg (by omega)]
  have hplen : ((substrJS s 20 3).map Char.toUpper).length = 3 := by
    rw [List.length_map, substrJS_length]
    omega
  rw [if_neg (not_not_intro ⟨hplen, hpam⟩)]
  have hprot : (substrJS s 0 20).map Char.toUpper = substrJS s 0 20 :=
    map_toUpper_of_all_base hbase
  have hprotlen : (substrJS s 0 20).length = 20 := by
    rw [substrJS_length]
    omega
  rw [hprot]
  rw [if_neg (not_not_intro ⟨fun he => by simp [he] at hprotlen, hbase⟩)]
  rw [scoreLoop_one_eq_sum hprotlen 21 0 (by norm_num)]
  rw [claimTotal, Finset.range_eq_Ico]
  refine Finset.sum_congr rfl fun j hj => ?_
  rw [Finset.mem_Ico] at hj
  exact windowTerm_eq_claim hlen (by omega)

/-- C1 witness: on 20 × 'A' + "AGG" with pattern "NGG" the analysis equals
the claimed window sum. -/
theorem analyze_step_one_eq_claim_sum_witness :
    analyzeSequenceForScore (List.replicate 20 'A' ++ ['A', 'G', 'G']) 1 ['N', 'G', 'G'] =
      claimTotal (List.replicate 20 'A' ++ ['A', 'G', 'G']) :=
  analyze_step_one_eq_claim_sum _ _ (by decide) (by decide) (by decide) (by decide)

/-- C1 counterexample: on the input `seqC1` (upstream "AAAACG" + 14 × 'A',
PAM slot "AAG") with motif pattern "NNG", the last 3 symbols do match the
motif pattern in the wildcard sense of the specification, yet the analysis
returns 0.0 while the claimed window sum is non-zero — so the claim, read
with the specification's motif matching, is false. -/
theorem claim_c1_counterexample :
    seqC1.length = 23 ∧
    (substrJS seqC1 0 20).all isBase = true ∧
    scannerAccepts (['N', 'N', 'G'].map Char.toUpper)
      ((substrJS seqC1 20 3).map Char.toUpper) = true ∧
    analyzeSequenceForScore seqC1 1 ['N', 'N', 'G'] = 0 ∧
    analyzeSequenceForScore seqC1 1 ['N', 'N', 'G'] ≠ claimTotal seqC1 := by
  have hzero : analyzeSequenceForScore seqC1 1 ['N', 'N', 'G'] = 0 := by
    rw [analyzeSequenceForScore, analyzeFuel]
    rw [if_neg (by decide)]
    rw [if_pos (by
      intro hcon
      have : scorerAccepts (['N', 'N', 'G'].map Char.toUpper)
          ((substrJS seqC1 20 3).map Char.toUpper) = true := hcon.2
      exact absurd this (by decide))]
  have e0 : claimWindowTerm seqC1 0 = fingerprint 2 3 := rfl
  have e1 : claimWindowTerm seqC1 1 = 0 := rfl
  have e2 : claimWindowTerm seqC1 2 = 0 := rfl
  have e3 : claimWindowTerm seqC1 3 = 0 := rfl
  have e4 : claimWindowTerm seqC1 4 = 0 := rfl
  have e5 : claimWindowTerm seqC1 5 = 0 := rfl
  have e6 : claimWindowTerm seqC1 6 = 0 := rfl
  have e7 : claimWindowTerm seqC1 7 = 0 := rfl
  have e8 : claimWindowTerm seqC1 8 = 0 := rfl
  have e9 : claimWindowTerm seqC1 9 = 0 := rfl
  have e10 : claimWindowTerm seqC1 10 = 0 := rfl
  have e11 : claimWindowTerm seqC1 11 = 0 := rfl
  have e12 : claimWindowTerm seqC1 12 = 0 := rfl
  have e13 : claimWindowTerm seqC1 13 = 0 := rfl
  have e14 : claimWindowTerm seqC1 14 = 0 := rfl
  have hsum : claimTotal seqC1 = fingerprint 2 3 := by
    rw [claimTotal]
    rw [Finset.sum_range_succ, Finset.sum_range_succ, Finset.sum_range_succ,
      Finset.sum_range_succ, Finset.sum_range_succ, Finset.sum_range_succ,
      Finset.sum_range_succ, Finset.sum_range_succ, Finset.sum_range_succ,
      Finset.sum_range_succ, Finset.sum_range_succ, Finset.sum_range_succ,
      Finset.sum_range_succ, Finset.sum_range_succ, Finset.sum_range_succ,
      Finset.sum_range_zero]
    rw [e0, e1, e2, e3, e4, e5, e6, e7, e8, e9, e10, e11, e12, e13, e14]
    ring
  have hpos : 0 < fingerprint 2 3 := by
    rw [fingerprint]
    rw [if_neg (by push_neg; norm_num)]
    apply div_pos
    · rw [show (((2 : ℕ) : ℝ) - ((3 : ℕ) : ℝ)) = -1 by push_cast; ring, abs_neg, abs_one]
      norm_num
    · have hlog : (0 : ℝ) < Real.log ((((2 : ℕ) : ℝ) + ((3 : ℕ) : ℝ)) / 2) :=
        Real.log_pos (by push_cast; norm_num)
      have hm : (0 : ℝ) < ((2 : ℕ) : ℝ) * ((3 : ℕ) : ℝ) := by push_cast; norm_num
      exact mul_pos hm hlog
  refine ⟨by decide, by decide, by decide, hzero, ?_⟩
  rw [hzero, hsum]
  exact ne_of_lt hpos

/-! ### Motif scanner -/

theorem patMatchAt_le_length {pat s : List Char} (hp : pat ≠ []) {j : ℕ}
    (h : patMatchAt pat s j = true) : j + pat.length ≤ s.length := by
  rw [patMatchAt, matchToks, Bool.and_eq_true] at h
  have hlen : (scannerToks pat).length = (substrJS s j pat.length).length := by
    have := h.1
    simpa using this
  rw [scannerToks, List.length_map, substrJS_length] at hlen
  have hpos : 0 < pat.length := List.length_pos.mpr hp
  omega

theorem findFirstAux_some {pat s : List Char} :
    ∀ fuel pos i, findFirstAux pat s pos fuel = some i →
      pos ≤ i ∧ patMatchAt pat s i = true ∧
      ∀ j, pos ≤ j → j < i → patMatchAt pat s j = false := by
  intro fuel
  induction fuel with
  | zero => intro pos i h; exact absurd h (by rw [findFirstAux]; simp)
  | succ fuel ih =>
    intro pos i h
    rw [findFirstAux] at h
    by_cases hm : patMatchAt pat s pos = true
    · rw [if_pos hm] at h
      obtain rfl : pos = i := by injection h
      exact ⟨le_rfl, hm, fun j h1 h2 => absurd h1 (by omega)⟩
    · rw [if_neg hm] at h
      obtain ⟨h1, h2, h3⟩ := ih (pos + 1) i h
      refine ⟨by omega, h2, fun j hj1 hj2 => ?_⟩
      rcases eq_or_lt_of_le hj1 with rfl | hlt
      · exact Bool.not_eq_true _ ▸ (by simpa using hm)
      · exact h3 j (by omega) hj2

theorem findFirstAux_none {pat s : List Char} :
    ∀ fuel pos, findFirstAux pat s pos fuel = none →
      ∀ j, pos ≤ j → j < pos + fuel → patMatchAt pat s j = false := by
  intro fuel
  induction fuel with
  | zero => intro pos _ j h1 h2; omega
  | succ fuel ih =>
    intro pos h j h1 h2
    rw [findFirstAux] at h
    by_cases hm : patMatchAt pat s pos = true
    · rw [if_pos hm] at h; exact absurd h (by simp)
    · rw [if_neg hm] at h
      rcases eq_or_lt_of_le h1 with rfl | hlt
      · exact Bool.not_eq_true _ ▸ (by simpa using hm)
      · exact ih (pos + 1) h j (by omega) (by omega)

theorem findFrom_some {pat s : List Char} {pos i : ℕ}
    (h : findFrom pat s pos = some i) :
    pos ≤ i ∧ patMatchAt pat s i = true ∧
    ∀ j, pos ≤ j → j < i → patMatchAt pat s j = false :=
  findFirstAux_some _ pos i h

theorem findFrom_none {pat s : List Char} (hp : pat ≠ []) {pos : ℕ}
    (h : findFrom pat s pos = none) :
    ∀ j, pos ≤ j → patMatchAt pat s j = false := by
  intro j hj
  by_contra hmatch
  rw [Bool.not_eq_false] at hmatch
  have hb := patMatchAt_le_length hp hmatch
  have hpos : 0 < pat.length := List.length_pos.mpr hp
  rcases le_or_lt pos s.length with hps | hps
  · have := findFirstAux_none (s.length + 1 - pos) pos h j hj (by omega)
    rw [hmatch] at this
    exact absurd this (by simp)
  · omega

theorem scanFrom_zero (pat s : List Char) (pos : ℕ) : scanFrom pat s pos 0 = [] := rfl

theorem scanFrom_succ (pat s : List Char) (pos fuel : ℕ) :
    scanFrom pat s pos (fuel + 1) =
      match findFrom pat s pos with
      | none => []
      | some i => i :: scanFrom pat s (i + pat.length) fuel := rfl

theorem scanFrom_mem {pat s : List Char} :
    ∀ fuel pos i, i ∈ scanFrom pat s pos fuel →
      pos ≤ i ∧ patMatchAt pat s i = true := by
  intro fuel
  induction fuel with
  | zero => intro pos i h; exact absurd h (by simp [scanFrom_zero])
  | succ fuel ih =>
    intro pos i h
    rw [scanFrom_succ] at h
    rcases hf : findFrom pat s pos with _ | i0
    · rw [hf] at h; exact absurd h (by simp)
    · rw [hf] at h
      obtain ⟨h1, h2, _⟩ := findFrom_some hf
      rcases List.mem_cons.mp h with rfl | h
      · exact ⟨h1, h2⟩
      · obtain ⟨h3, h4⟩ := ih (i0 + pat.length) i h
        exact ⟨by omega, h4⟩

theorem scanFrom_chain {pat s : List Char} :
    ∀ fuel pos, List.Chain' (fun a b => a + pat.length ≤ b) (scanFrom pat s pos fuel) := by
  intro fuel
  induction fuel with
  | zero => intro pos; rw [scanFrom_zero]; exact List.chain'_nil
  | succ fuel ih =>
    intro pos
    rw [scanFrom_succ]
    rcases hf : findFrom pat s pos with _ | i0
    · exact List.chain'_nil
    · rw [List.chain'_cons']
      refine ⟨fun y hy => ?_, ih (i0 + pat.length)⟩
      exact (scanFrom_mem fuel (i0 + pat.length) y (List.mem_of_mem_head? hy)).1

theorem scanFrom_complete {pat s : List Char} (hp : pat ≠ []) :
    ∀ fuel pos j, s.length + 1 ≤ pos + fuel → pos ≤ j → patMatchAt pat s j = true →
      ∃ i ∈ scanFrom pat s pos fuel, i ≤ j ∧ j < i + pat.length := by
  intro fuel
  induction fuel with
  | zero =>
    intro pos j hfuel hj hmatch
    have hb := patMatchAt_le_length hp hmatch
    have hpos : 0 < pat.length := List.length_pos.mpr hp
    omega
  | succ fuel ih =>
    intro pos j hfuel hj hmatch
    rw [scanFrom_succ]
    rcases hf : findFrom pat s pos with _ | i0
    · exact absurd (findFrom_none hp hf j hj) (by simp [hmatch])
    · obtain ⟨h1, h2, h3⟩ := findFrom_some hf
      have hi0j : i0 ≤ j := by
        by_contra hc
        exact absurd (h3 j hj (by omega)) (by simp [hmatch])
      by_cases hover : j < i0 + pat.length
      · exact ⟨i0, List.mem_cons_self i0 _, hi0j, hover⟩
      · have hpos : 0 < pat.length := List.length_pos.mpr hp
        obtain ⟨i, hmem, hle, hlt⟩ :=
          ih (i0 + pat.length) j (by omega) (by omega) hmatch
        exact ⟨i, List.mem_cons_of_mem i0 hmem, hle, hlt⟩

theorem find_invalid_spec :
    ∀ (l : List Char) (c : Char),
      l.find? (fun c => !isBase c) = some c →
      isBase c = false ∧ l.indexOf c < l.length ∧
      l.getD (l.indexOf c) 'A' = c ∧
      ∀ j, j < l.indexOf c → isBase (l.getD j 'A') = true := by
  intro l
  induction l with
  | nil => intro c h; exact absurd h (by simp)
  | cons x xs ih =>
    intro c h
    rw [List.find?_cons] at h
    by_cases hx : isBase x = true
    · have hpx : (!isBase x) = false := by rw [hx]; rfl
      rw [hpx] at h
      obtain ⟨h1, h2, h3, h4⟩ := ih c h
      have hxc : (x == c) = false := by
        refine beq_eq_false_iff_ne.mpr fun he => ?_
        rw [he, h1] at hx
        exact absurd hx (by simp)
      rw [List.indexOf_cons, hxc, Bool.cond_false]
      refine ⟨h1, by simp only [List.length_cons]; omega, ?_, ?_⟩
      · rw [List.getD_cons_succ]
        exact h3
      · intro j hj
        cases j with
        | zero => simpa [List.getD_cons_zero] using hx
        | succ j =>
          rw [List.getD_cons_succ]
          exact h4 j (by omega)
    · have hpx : (!isBase x) = true := by
        rw [Bool.not_eq_true] at hx
        rw [hx]; rfl
      rw [hpx] at h
      obtain rfl : x = c := by injection h
      have hxc : (x == x) = true := beq_self_eq_true x
      rw [List.indexOf_cons, hxc, Bool.cond_true]
      refine ⟨by simpa using hx, by simp, by simp [List.getD_cons_zero], ?_⟩
      intro j hj
      omega

/-- C5: on any sequence that, after uppercasing, contains a symbol outside
{A,C,G,T}, discovery (invoked with a nonempty pattern) fails with the
invalid-character error naming the first offending symbol and its zero-based
position, and produces no candidates — the check runs once, before the
scan. -/
theorem discover_invalid_input (seq0 pat0 : List Char) (hp : pat0 ≠ [])
    (hbad : (seq0.map Char.toUpper).all isBase = false) :
    ∃ c idx, discoverGrnas seq0 pat0 = .invalidChar c idx ∧
      isBase c = false ∧ idx < (seq0.map Char.toUpper).length ∧
      (seq0.map Char.toUpper).getD idx 'A' = c ∧
      ∀ j, j < idx → isBase ((seq0.map Char.toUpper).getD j 'A') = true := by
  obtain ⟨x, hmem, hx⟩ := List.all_eq_false.mp hbad
  have hsome : ((seq0.map Char.toUpper).find? (fun c => !isBase c)).isSome = true :=
    List.find?_isSome.mpr ⟨x, hmem, by simpa using hx⟩
  rcases hfind : (seq0.map Char.toUpper).find? (fun c => !isBase c) with _ | c
  · rw [hfind] at hsome; exact absurd hsome (by simp)
  obtain ⟨h1, h2, h3, h4⟩ := find_invalid_spec _ c hfind
  refine ⟨c, (seq0.map Char.toUpper).indexOf c, ?_, h1, h2, h3, h4⟩
  rw [discoverGrnas, if_neg (by simpa using hp), hfind]

/-- C5 witness: the sequence 20 × 'A' + "XGG" (with the invalid 'X' at
position 20) fails discovery with the invalid-character error at
position 20. -/
theorem discover_invalid_input_witness :
    discoverGrnas (List.replicate 20 'A' ++ ['X', 'G', 'G']) ['N', 'G', 'G'] =
      .invalidChar 'X' 20 := by
  obtain ⟨c, idx, heq, h1, h2, h3, h4⟩ :=
    discover_invalid_input (List.replicate 20 'A' ++ ['X', 'G', 'G']) ['N', 'G', 'G']
      (by decide) (by decide)
  rw [heq]
  rw [show discoverGrnas (List.replicate 20 'A' ++ ['X', 'G', 'G']) ['N', 'G', 'G'] =
    .invalidChar 'X' 20 from rfl] at heq
  injection heq with hc hidx
  rw [hc, hidx]

theorem substr_all_base {s : List Char} (h : s.all isBase = true) (i n : ℕ) :
    (substrJS s i n).all isBase = true := by
  rw [List.all_eq_true] at h ⊢
  intro x hx
  exact h x (List.drop_subset i s (List.take_subset n _ hx))

theorem matchToks_scanner_false_of_bad :
    ∀ pat t : List Char, (∃ c ∈ pat, c ∉ (['A', 'C', 'G', 'T', 'N'] : List Char)) →
      t.all isBase = true → matchToks (scannerToks pat) t = false := by
  intro pat
  induction pat with
  | nil =>
    intro t h _
    obtain ⟨c, hc, _⟩ := h
    exact absurd hc (List.not_mem_nil c)
  | cons x rest ih =>
    intro t hex hbase
    have htoks : scannerToks (x :: rest) =
        (if x = 'N' then MTok.wild else MTok.lit x) :: scannerToks rest := rfl
    rcases t with _ | ⟨d, ds⟩
    · rw [htoks, matchToks_cons]
    · rw [htoks, matchToks_cons]
      show (tokMatch (if x = 'N' then MTok.wild else MTok.lit x) d &&
        matchToks (scannerToks rest) ds) = false
      rw [List.all_cons, Bool.and_eq_true] at hbase
      rcases hex with ⟨c, hc, hcn⟩
      rcases List.mem_cons.mp hc with hcx | hcr
      · subst hcx
        have hxn : c ≠ 'N' := by
          intro he
          rw [he] at hcn
          exact hcn (by decide)
        rw [if_neg hxn]
        have hxd : (c == d) = false := by
          refine beq_eq_false_iff_ne.mpr fun he => ?_
          subst he
          rcases isBase_cases hbase.1 with h4 | h4 | h4 | h4 <;>
            (rw [h4] at hcn; exact hcn (by decide))
        simp [tokMatch, hxd]
      · rw [ih ds ⟨c, hcr, hcn⟩ hbase.2]
        simp

/-- C4 (amended): on a valid sequence with a nonempty pattern, the match
offsets collected by the scan are genuine matches, listed left to right
with each next offset at least a full pattern length past the previous one
(the `exec` loop resumes after the end of each match, so overlapping
matches are skipped, not emitted), and every matching offset is either
collected or overlaps a collected one; discovery then emits one candidate
per collected offset that is at least 20 — upstream the 20 preceding
symbols and position the offset minus 20 — or the no-candidates error when
none remains. -/
theorem discover_scan_spec (seq0 pat0 : List Char) (hp : pat0 ≠ [])
    (hs : (seq0.map Char.toUpper).all isBase = true)
    (hpat : ∀ c ∈ pat0, Char.toUpper c ∈ (['A', 'C', 'G', 'T', 'N'] : List Char)) :
    (∀ i ∈ scanFrom (pat0.map Char.toUpper) (seq0.map Char.toUpper) 0
        ((seq0.map Char.toUpper).length + 1),
      patMatchAt (pat0.map Char.toUpper) (seq0.map Char.toUpper) i = true) ∧
    List.Chain' (fun a b => a + (pat0.map Char.toUpper).length ≤ b)
      (scanFrom (pat0.map Char.toUpper) (seq0.map Char.toUpper) 0
        ((seq0.map Char.toUpper).length + 1)) ∧
    (∀ j, patMatchAt (pat0.map Char.toUpper) (seq0.map Char.toUpper) j = true →
      ∃ i ∈ scanFrom (pat0.map Char.toUpper) (seq0.map Char.toUpper) 0
          ((seq0.map Char.toUpper).length + 1),
        i ≤ j ∧ j < i + (pat0.map Char.toUpper).length) ∧
    discoverCands seq0 pat0 =
      ((scanFrom (pat0.map Char.toUpper) (seq0.map Char.toUpper) 0
          ((seq0.map Char.toUpper).length + 1)).filter fun i => decide (20 ≤ i)).map
        (fun i =>
          { protospacer := substrJS (seq0.map Char.toUpper) (i - 20) 20,
            pam := substrJS (seq0.map Char.toUpper) i (pat0.map Char.toUpper).length,
            loc := i - 20 : GCand }) ∧
    discoverGrnas seq0 pat0 =
      (if (discoverCands seq0 pat0).isEmpty then .noCandidates
       else .found (discoverCands seq0 pat0)) := by
  have hpm : pat0.map Char.toUpper ≠ [] := by
    intro he
    exact hp (List.map_eq_nil.mp he)
  refine ⟨fun i hi => (scanFrom_mem _ 0 i hi).2, scanFrom_chain _ 0,
    fun j hj => scanFrom_complete hpm _ 0 j (by omega) (by omega) hj, rfl, ?_⟩
  have hfind : (seq0.map Char.toUpper).find? (fun c => !isBase c) = none := by
    rw [List.find?_eq_none]
    intro x hx
    rw [List.all_eq_true] at hs
    simp [hs x hx]
  rw [discoverGrnas, if_neg (by simpa using hp), hfind]

/-- C4 counterexample: on 20 × 'A' + "GGGG" with pattern "NGG" the pattern
matches at offset 20 (≥ 20), yet discovery reports no candidates: the
earlier match at offset 19 advanced the scan past offset 22, skipping the
overlapping matches at offsets 20 and 21, so the claim that every matching
offset of at least 20 yields a candidate is false. -/
theorem claim_c4_counterexample :
    patMatchAt (['N', 'G', 'G'].map Char.toUpper) (seqC4.map Char.toUpper) 20 = true ∧
    patMatchAt (['N', 'G', 'G'].map Char.toUpper) (seqC4.map Char.toUpper) 21 = true ∧
    (seqC4.map Char.toUpper).all isBase = true ∧
    discoverGrnas seqC4 ['N', 'G', 'G'] = .noCandidates := by
  refine ⟨by decide, by decide, by decide, by decide⟩

/-- C4 witness: on 20 × 'A' + "AGG" with pattern "NGG" the scan collects
offset 20 and discovery emits the single candidate with upstream 20 × 'A'
and position 0. -/
theorem discover_scan_spec_witness :
    discoverGrnas (List.replicate 20 'A' ++ ['A', 'G', 'G']) ['N', 'G', 'G'] =
      (if (discoverCands (List.replicate 20 'A' ++ ['A', 'G', 'G']) ['N', 'G', 'G']).isEmpty
       then .noCandidates
       else .found (discoverCands (List.replicate 20 'A' ++ ['A', 'G', 'G']) ['N', 'G', 'G'])) ∧
    discoverCands (List.replicate 20 'A' ++ ['A', 'G', 'G']) ['N', 'G', 'G'] =
      [{ protospacer := List.replicate 20 'A', pam := ['A', 'G', 'G'], loc := 0 }] := by
  refine ⟨(discover_scan_spec _ _ (by decide) (by decide) (by decide)).2.2.2.2, by decide⟩

/-- C9 (amended): an empty motif pattern makes discovery return the silent
early no-pattern exit (no Invalid-Pattern error is raised); a nonempty
all-letter pattern containing a letter outside {A,C,G,T,N} is used
literally, and on a valid sequence it can never match, so discovery
reports the ordinary no-candidates error rather than an Invalid-Pattern
failure. -/
theorem discover_pattern_behavior (seq0 pat0 : List Char)
    (hs : (seq0.map Char.toUpper).all isBase = true)
    (hp : pat0 ≠ [])
    (hbadc : ∃ c ∈ pat0.map Char.toUpper, c ∉ (['A', 'C', 'G', 'T', 'N'] : List Char))
    (halpha : ∀ c ∈ pat0.map Char.toUpper, c.isAlpha = true) :
    discoverGrnas seq0 [] = .noPattern ∧
    discoverGrnas seq0 pat0 = .noCandidates := by
  refine ⟨rfl, ?_⟩
  have hfind : (seq0.map Char.toUpper).find? (fun c => !isBase c) = none := by
    rw [List.find?_eq_none]
    intro x hx
    rw [List.all_eq_true] at hs
    simp [hs x hx]
  have hnomatch : ∀ j, patMatchAt (pat0.map Char.toUpper) (seq0.map Char.toUpper) j = false := by
    intro j
    rw [patMatchAt]
    exact matchToks_scanner_false_of_bad _ _ hbadc (substr_all_base hs _ _)
  have hscan : scanFrom (pat0.map Char.toUpper) (seq0.map Char.toUpper) 0
      ((seq0.map Char.toUpper).length + 1) = [] := by
    rcases hlen : (seq0.map Char.toUpper).length + 1 with _ | fuel
    · omega
    · rw [scanFrom_succ]
      rcases hf : findFrom (pat0.map Char.toUpper) (seq0.map Char.toUpper) 0 with _ | i0
      · rfl
      · have := (findFrom_some hf).2.1
        rw [hnomatch i0] at this
        exact absurd this (by simp)
  have hcands : discoverCands seq0 pat0 = [] := by
    rw [discoverCands, hscan]
    rfl
  rw [discoverGrnas, if_neg (by simpa using hp), hfind, hcands]
  rfl

/-- C9 counterexample: discovery with an empty pattern silently returns the
no-pattern early exit, and with the pattern "XGG" (containing the invalid
symbol 'X') it reports the ordinary no-candidates error — in neither case
does it fail with an Invalid-Pattern error. -/
theorem claim_c9_counterexample :
    discoverGrnas (List.replicate 20 'A' ++ ['T', 'G', 'G']) [] = .noPattern ∧
    discoverGrnas (List.replicate 20 'A' ++ ['T', 'G', 'G']) ['X', 'G', 'G'] =
      .noCandidates := by
  refine ⟨rfl, by decide⟩

/-- C9 witness: the amended behaviour at the concrete sequence
20 × 'A' + "ACG" and pattern "XGG". -/
theorem discover_pattern_behavior_witness :
    discoverGrnas (List.replicate 20 'A' ++ ['A', 'C', 'G']) [] = .noPattern ∧
    discoverGrnas (List.replicate 20 'A' ++ ['A', 'C', 'G']) ['X', 'G', 'G'] =
      .noCandidates :=
  discover_pattern_behavior _ ['X', 'G', 'G'] (by decide) (by decide)
    ⟨'X', by decide, by decide⟩ (by decide)
